import Mathlib

/-!
Verification of the single-task execution core of the scipipe workflow
engine (`task.go`).  The Go source is embedded shallowly:

* `FileTarget` / `SciTask` carry the data of the Go structs; Go maps are
  embedded as association lists (unique keys, unordered — every property
  proved here is order-insensitive exactly where the Go code is).
* `formatCommand` (with its placeholder scanner and the sequential
  `strings.Replace` loop) is embedded as an executable function returning
  `Except` — the Go code aborts via `Check(errors.New ...)` on the same
  branches.
* `Execute` performs filesystem probes, runs a strategy, renames temp
  files and signals a channel.  It is embedded as a function from the
  initial filesystem state (the set of paths that exist when `Execute`
  starts, as a list) to the list of effects it performs, in order.
-/

set_option autoImplicit false

deriving instance DecidableEq for Except

namespace Scipipe

/-- Placeholder kind: the four alternatives of the shell-command
placeholder syntax `{i:..}`, `{o:..}`, `{os:..}`, `{p:..}`. -/
inductive PTyp where
  | i
  | o
  | os
  | p
  deriving DecidableEq, Repr

/-- The characters of a placeholder kind as written in a command pattern. -/
def PTyp.chars : PTyp → List Char
  | .i => ['i']
  | .o => ['o']
  | .os => ['o', 's']
  | .p => ['p']

/-- One placeholder token `{typ:name}` as found in a command pattern. -/
structure Tok where
  typ : PTyp
  name : List Char
  deriving DecidableEq, Repr

/-- The literal text of a token, `{typ:name}`. -/
def Tok.render (t : Tok) : List Char :=
  '{' :: (t.typ.chars ++ ':' :: (t.name ++ ['}']))

/-- Modelled from the spec: the `FileTarget` type lives outside this core
(`task.go` only consumes it).  Per the spec it exposes a final path, a
temporary path, a FIFO path and a streaming flag; the scenario section
fixes the temp-path convention (`/data/a.out` ↦ `/data/a.out.tmp`), and
the FIFO path is likewise the final path with a `.fifo` suffix. -/
structure FileTarget where
  path : String
  doStream : Bool
  deriving DecidableEq, Repr

def NewFileTarget (path : String) : FileTarget :=
  { path := path, doStream := false }

def FileTarget.GetPath (t : FileTarget) : String :=
  t.path

def FileTarget.GetTempPath (t : FileTarget) : String :=
  t.path ++ (".tmp")

def FileTarget.GetFifoPath (t : FileTarget) : String :=
  t.path ++ (".fifo")

/-- The `SciTask` struct.  `CustomExecute` is a nullable function pointer
in Go; only its presence is observable in the effect model, so it is
embedded as an `Option Unit`.  The `Done` channel has no data content
(its signalling is part of the effect trace of `Execute`). -/
structure SciTask where
  Name : String
  Command : String
  CustomExecute : Option Unit
  InTargets : List (String × FileTarget)
  OutTargets : List (String × FileTarget)
  Params : List (String × String)
  deriving DecidableEq, Repr

/-! ### The placeholder scanner

Modelled from the spec: the helper `getShellCommandPlaceHolderRegex` is
not part of this core's source.  Per the spec, placeholder tokens have
the shape `{<kind>:<name>}` with `<kind>` one of `i`, `o`, `os`, `p` and
`<name>` a nonempty run of characters other than braces and colon.  The
scanner finds all non-overlapping occurrences left to right, like
`FindAllStringSubmatch`. -/

/-- Recognize a placeholder kind from the characters between `{` and `:`. -/
def kindOf : List Char → Option PTyp
  | ['o'] => some .o
  | ['o', 's'] => some .os
  | ['i'] => some .i
  | ['p'] => some .p
  | _ => none

/-- Scanner state: outside any candidate token, inside the kind part
(chars since `{`, reversed), or inside the name part (reversed). -/
inductive ScanSt where
  | outside
  | kind (acc : List Char)
  | name (ty : PTyp) (acc : List Char)

/-- One left-to-right pass finding all placeholder tokens.  On a failed
candidate the backtracking of the regex engine restarts at the failing
character; since no character strictly inside a candidate can be `{`,
restarting there is equivalent to restarting one past the `{`. -/
def scan : ScanSt → List Char → List Tok
  | _, [] => []
  | .outside, c :: s =>
      if c = '{' then scan (.kind []) s else scan .outside s
  | .kind acc, c :: s =>
      if c = '{' then scan (.kind []) s
      else if c = ':' then
        match kindOf acc.reverse with
        | some ty => scan (.name ty []) s
        | none => scan .outside s
      else if c = '}' then scan .outside s
      else scan (.kind (c :: acc)) s
  | .name ty acc, c :: s =>
      if c = '{' then scan (.kind []) s
      else if c = ':' then scan .outside s
      else if c = '}' then
        match acc with
        | [] => scan .outside s
        | _ => ⟨ty, acc.reverse⟩ :: scan .outside s
      else scan (.name ty (c :: acc)) s

/-- All placeholder tokens of a command pattern, in order of occurrence. -/
def findToks (s : List Char) : List Tok :=
  scan .outside s

/-! ### Literal replacement, `strings.Replace(s, old, new, -1)` -/

/-- `dropPre pat s = some r` iff `s = pat ++ r`. -/
def dropPre : List Char → List Char → Option (List Char)
  | [], s => some s
  | _ :: _, [] => none
  | p :: ps, c :: s => if p = c then dropPre ps s else none

/-- Fuel-indexed worker for literal replacement (the fuel makes the
definition structural, hence kernel-evaluable). -/
def replaceAllGo : Nat → List Char → List Char → List Char → List Char
  | 0, s, _, _ => s
  | fuel + 1, s, pat, rep =>
      match dropPre pat s with
      | some r => rep ++ replaceAllGo fuel r pat rep
      | none =>
        match s with
        | [] => []
        | c :: s1 => c :: replaceAllGo fuel s1 pat rep

/-- Replace every non-overlapping occurrence of `pat` in `s` by `rep`,
left to right, without rescanning replaced text — the semantics of Go's
`strings.Replace(s, pat, rep, -1)` for nonempty `pat`. -/
def replaceAll (s pat rep : List Char) : List Char :=
  if pat = [] then s else replaceAllGo s.length s pat rep

/-! ### Resolution of one placeholder and the formatting loop -/

/-- The value substituted for one placeholder token, `none` on each of
the abort branches of the Go code: missing out-target, missing
in-target, empty in-path, missing/empty param, and the final
`filePath == ""` guard. -/
def resolveVal (inTargets outTargets : List (String × FileTarget))
    (params : List (String × String)) (t : Tok) : Option (List Char) :=
  let v : Option (List Char) :=
    match t.typ with
    | .o =>
      match outTargets.lookup (String.mk t.name) with
      | none => none
      | some tgt => some tgt.GetTempPath.data
    | .os =>
      match outTargets.lookup (String.mk t.name) with
      | none => none
      | some tgt => some tgt.GetFifoPath.data
    | .i =>
      match inTargets.lookup (String.mk t.name) with
      | none => none
      | some tgt =>
        if tgt.GetPath = ("") then none
        else if tgt.doStream then some tgt.GetFifoPath.data
        else some tgt.GetPath.data
    | .p =>
      match ((params.lookup (String.mk t.name)).getD ("")) with
      | ⟨[]⟩ => none
      | v => some v.data
  match v with
  | none => none
  | some w => if w = [] then none else some w

/-- The Go error message for the failing branch (`Check(errors.New msg)`
aborts; the message text is irrelevant to every claim). -/
def resolveErrMsg (cmd : List Char) (t : Tok) : String :=
  (String.mk cmd) ++ (": unresolvable placeholder ") ++ (String.mk t.render)

/-- Resolution of one token as the Go loop body performs it: a value, or
an abort. -/
def resolveTok (cmd : List Char) (inTargets outTargets : List (String × FileTarget))
    (params : List (String × String)) (t : Tok) : Except String (List Char) :=
  match resolveVal inTargets outTargets params t with
  | some v => .ok v
  | none => .error (resolveErrMsg cmd t)

/-- The body of `formatCommand`: process the found tokens in the given
order, each one resolved and then literally replaced everywhere in the
evolving command. -/
def formatLoop (inTargets outTargets : List (String × FileTarget))
    (params : List (String × String)) : List Tok → List Char → Except String (List Char)
  | [], cmd => .ok cmd
  | t :: ts, cmd =>
    match resolveTok cmd inTargets outTargets params t with
    | .error e => .error e
    | .ok v => formatLoop inTargets outTargets params ts (replaceAll cmd t.render v)

/-- `formatCommand` with an explicit token-processing order (the Go code
uses the order in which the regex finds the tokens). -/
def formatCommandWith (ms : List Tok) (cmd : String)
    (inTargets outTargets : List (String × FileTarget))
    (params : List (String × String)) (prepend : String) : Except String String :=
  match formatLoop inTargets outTargets params ms cmd.data with
  | .error e => .error e
  | .ok r =>
    if prepend = ("") then .ok (String.mk r)
    else .ok (prepend ++ (" ") ++ String.mk r)

/-- The `formatCommand` helper of `task.go`: find all placeholder
tokens, substitute them in order of occurrence, then prepend the prefix
string (separated by one space) when it is nonempty. -/
def formatCommand (cmd : String) (inTargets outTargets : List (String × FileTarget))
    (params : List (String × String)) (prepend : String) : Except String String :=
  formatCommandWith (findToks cmd.data) cmd inTargets outTargets params prepend

/-! ### The task executor

`Execute` probes the filesystem, possibly runs one strategy, renames
temp outputs, then signals and closes the `Done` channel.  The initial
filesystem state is the list of paths that exist when `Execute` starts
(the `os.Stat` probes); everything `Execute` does is recorded as an
effect trace, in order. -/

/-- The observable effects of `Execute`, in order of occurrence. -/
inductive Effect where
  | execCustom
  | execShell (cmd : String)
  | atomize (tmpPath finalPath : String)
  | sendDone
  | closeDone
  deriving DecidableEq, Repr

/-- Does path `p` exist in filesystem state `fs` (`os.Stat` succeeding)? -/
def fsHas (fs : List String) (p : String) : Bool :=
  fs.contains p

/-- `anyOutputExists`: some non-streaming out-target's final path or
temporary path exists.  The Go loop or-accumulates a flag over the map;
the result is the disjunction over all entries. -/
def anyOutputExists (t : SciTask) (fs : List String) : Bool :=
  t.OutTargets.any fun pr =>
    !pr.2.doStream && (fsHas fs pr.2.GetPath || fsHas fs pr.2.GetTempPath)

/-- `fifosInOutTargetsMissing`: some streaming out-target's FIFO path
does not exist. -/
def fifosInOutTargetsMissing (t : SciTask) (fs : List String) : Bool :=
  t.OutTargets.any fun pr =>
    pr.2.doStream && !fsHas fs pr.2.GetFifoPath

/-- `atomizeTargets`: rename the temp file of every non-streaming
out-target to its final path; streaming targets are skipped. -/
def atomizeTargets (t : SciTask) : List Effect :=
  t.OutTargets.filterMap fun pr =>
    if pr.2.doStream then none
    else some (.atomize pr.2.GetTempPath pr.2.GetPath)

/-- `Execute`: skip-check first (on the initial filesystem state), then
either nothing, or one strategy (custom when present, else the shell
command) followed by atomization; finally send on `Done`, then (the
deferred) close of `Done`. -/
def Execute (t : SciTask) (fs : List String) : List Effect :=
  (if !anyOutputExists t fs && !fifosInOutTargetsMissing t fs then
    (if t.CustomExecute.isSome then [.execCustom] else [.execShell t.Command])
      ++ atomizeTargets t
  else []) ++ [.sendDone, .closeDone]

/-! ### Task construction -/

/-- The task value as it stands when the output-path generator
functions are invoked inside `NewSciTask`: out-targets still the empty
map made at initialization, command still the empty string. -/
def preTask (name : String) (inTargets : List (String × FileTarget))
    (params : List (String × String)) : SciTask :=
  { Name := name, Command := "", CustomExecute := none,
    InTargets := inTargets, OutTargets := [], Params := params }

/-- `NewSciTask`: build the out-targets by applying each caller-supplied
path generator to the task under construction (marking the ones whose
port is flagged in `outPortsDoStream` as streaming), then format the
command.  `formatCommand` aborts on unresolvable placeholders, which
surfaces here as an `Except.error`. -/
def NewSciTask (name cmdPat : String) (inTargets : List (String × FileTarget))
    (outPathFuncs : List (String × (SciTask → String)))
    (outPortsDoStream : List (String × Bool))
    (params : List (String × String)) (prepend : String) : Except String SciTask :=
  let t := preTask name inTargets params
  let outTargets : List (String × FileTarget) := outPathFuncs.map fun pr =>
    let opath := pr.2 t
    let otgt := NewFileTarget opath
    (pr.1, if (outPortsDoStream.lookup pr.1).getD false then
      { otgt with doStream := true } else otgt)
  match formatCommand cmdPat inTargets outTargets params prepend with
  | .error e => .error e
  | .ok cmdF => .ok { t with OutTargets := outTargets, Command := cmdF }

/-- `GetInPath`: the plain path of the named in-target (`none` embeds
the nil-dereference when the port is absent). -/
def GetInPath (t : SciTask) (inPort : String) : Option String :=
  (t.InTargets.lookup inPort).map FileTarget.GetPath

/-- Is an effect an atomization (temp-to-final rename)? -/
def isAtomize : Effect → Bool
  | .atomize _ _ => true
  | _ => false

/-- Is an effect an invocation of an execution strategy (custom or
shell)? -/
def isInvocation : Effect → Bool
  | .execCustom => true
  | .execShell _ => true
  | _ => false

/-- Modelled from the spec: a placeholder token that references a name
absent from the corresponding mapping, or whose resolved replacement
value would be the empty string (for an input, a present but empty
path on a non-streaming target; for a param, an empty value). -/
def tokenUnresolvable (ins outs : List (String × FileTarget))
    (ps : List (String × String)) : Tok → Bool
  | ⟨.i, nm⟩ =>
    match ins.lookup (String.mk nm) with
    | none => true
    | some tgt => if tgt.doStream = false ∧ tgt.GetPath = ("") then true else false
  | ⟨.o, nm⟩ => (outs.lookup (String.mk nm)).isNone
  | ⟨.os, nm⟩ => (outs.lookup (String.mk nm)).isNone
  | ⟨.p, nm⟩ =>
    match ps.lookup (String.mk nm) with
    | none => true
    | some v => if v = ("") then true else false

/-! ### Segmented command patterns

For the order-independence and no-placeholder-remains properties we
relate the character-level formatter to a parallel substitution on a
segmented view of the pattern: alternating brace-free literal pieces
and placeholder tokens. -/

/-- Well-formedness of a token: nonempty name without braces or colon —
exactly the names the placeholder scanner can produce. -/
def Tok.WF (t : Tok) : Prop :=
  t.name ≠ [] ∧ ∀ c ∈ t.name, c ≠ '{' ∧ c ≠ '}' ∧ c ≠ ':'

instance (t : Tok) : Decidable t.WF := by
  unfold Tok.WF
  infer_instance

/-- The characters of a token's render strictly between its braces. -/
def Tok.mid (t : Tok) : List Char :=
  t.typ.chars ++ ':' :: t.name

/-- A segment of a command pattern: a literal piece or a token. -/
inductive Seg where
  | lit (s : List Char)
  | tok (t : Tok)
  deriving DecidableEq, Repr

/-- The text of a segment. -/
def Seg.render : Seg → List Char
  | .lit s => s
  | .tok t => t.render

/-- The text of a segmented pattern. -/
def renderSegs (ss : List Seg) : List Char :=
  (ss.map Seg.render).flatten

/-- A good segment: a brace-free literal, or a well-formed token. -/
def Seg.good : Seg → Prop
  | .lit s => '{' ∉ s ∧ '}' ∉ s
  | .tok t => t.WF

instance (s : Seg) : Decidable s.good := by
  cases s <;> (unfold Seg.good; infer_instance)

/-- The token of a segment, if any. -/
def segTok : Seg → Option Tok
  | .lit _ => none
  | .tok t => some t

/-- Replace one token (all its occurrences, compared by text) by a
literal value in a segment. -/
def substSeg (t : Tok) (v : List Char) : Seg → Seg
  | .lit s => .lit s
  | .tok u => if u.render = t.render then .lit v else .tok u

/-- Sequential substitution of the tokens of `ms`, each replaced by its
resolved value, exactly as the formatter loop does. -/
def applySubsts (ins outs : List (String × FileTarget)) (ps : List (String × String))
    (ms : List Tok) (ss : List Seg) : List Seg :=
  ms.foldl (fun acc t => acc.map (substSeg t ((resolveVal ins outs ps t).getD []))) ss

/-- Simultaneous substitution: a token segment becomes its resolved
value as soon as some processed token has the same text. -/
def totalSub (ins outs : List (String × FileTarget)) (ps : List (String × String))
    (ms : List Tok) : Seg → Seg
  | .lit a => .lit a
  | .tok u =>
    if ms.any (fun t => t.render == u.render) then
      .lit ((resolveVal ins outs ps u).getD [])
    else .tok u

/-- Modelled from the spec: the per-kind resolution table of §4.1 — an
input resolves to its FIFO path when the input target streams and to
its final path otherwise, an output to its temporary path, a streaming
output to its FIFO path, a param to its literal value. -/
def specTokenValue (ins outs : List (String × FileTarget))
    (ps : List (String × String)) (t : Tok) : List Char :=
  match t.typ with
  | .i =>
    match ins.lookup (String.mk t.name) with
    | some tgt => if tgt.doStream then tgt.GetFifoPath.data else tgt.GetPath.data
    | none => []
  | .o =>
    match outs.lookup (String.mk t.name) with
    | some tgt => tgt.GetTempPath.data
    | none => []
  | .os =>
    match outs.lookup (String.mk t.name) with
    | some tgt => tgt.GetFifoPath.data
    | none => []
  | .p => ((ps.lookup (String.mk t.name)).getD ("")).data

/-- A token the spec's table can resolve: name present in the right
mapping, with a nonempty path for an input and a nonempty value for a
param. -/
def tokResolvable (ins outs : List (String × FileTarget))
    (ps : List (String × String)) (t : Tok) : Bool :=
  match t.typ with
  | .i =>
    match ins.lookup (String.mk t.name) with
    | some tgt => if tgt.GetPath = ("") then false else true
    | none => false
  | .o => (outs.lookup (String.mk t.name)).isSome
  | .os => (outs.lookup (String.mk t.name)).isSome
  | .p => if ((ps.lookup (String.mk t.name)).getD ("")) = ("") then false else true

/-- Substitution by the spec's resolution table, applied to every token
segment at once. -/
def specSubst (ins outs : List (String × FileTarget))
    (ps : List (String × String)) : Seg → Seg
  | .lit a => .lit a
  | .tok t => .lit (specTokenValue ins outs ps t)

/-- A concrete task with one streaming input, used as evaluation input. -/
def sampleStreamTask : SciTask :=
  { Name := ("w"), Command := (""), CustomExecute := none,
    InTargets := [(("in"), ⟨("/d/a"), true⟩)], OutTargets := [], Params := [] }

/-- The task value `NewSciTask` produces for one non-streaming output
port `out` with constant generator, pattern `echo`: used as concrete
evaluation input. -/
def sampleBuiltTask1 : SciTask :=
  { Name := ("t1"), Command := ("echo"), CustomExecute := none,
    InTargets := [], Params := [],
    OutTargets := [(("out"), ⟨("/data/a.out"), false⟩)] }

/-- The task value `NewSciTask` produces for ports `out` (plain) and
`s` (streaming), pattern `echo`: used as concrete evaluation input. -/
def sampleBuiltTask2 : SciTask :=
  { Name := ("t2"), Command := ("echo"), CustomExecute := none,
    InTargets := [], Params := [],
    OutTargets := [(("out"), ⟨("/data/a.out"), false⟩), (("s"), ⟨("/d/s"), true⟩)] }

/-! ### Executor theorems -/

theorem atomizeTargets_eq_map (l : List (String × FileTarget)) :
    (l.filterMap fun pr =>
        if pr.2.doStream then none
        else some (Effect.atomize pr.2.GetTempPath pr.2.GetPath)) =
      (l.filter fun pr => !pr.2.doStream).map
        (fun pr => Effect.atomize pr.2.GetTempPath pr.2.GetPath) := by
  induction l with
  | nil => rfl
  | cons h l ih =>
    cases hds : h.2.doStream <;>
      simp [List.filterMap_cons, List.filter_cons, hds, ih]

theorem mem_atomizeTargets_isAtomize (t : SciTask) {e : Effect}
    (he : e ∈ atomizeTargets t) : isAtomize e = true := by
  rcases List.mem_filterMap.1 he with ⟨pr, _, hpr⟩
  by_cases hds : pr.2.doStream = true <;> simp [hds] at hpr
  subst hpr
  rfl

theorem skipCond_iff (t : SciTask) (fs : List String) :
    (anyOutputExists t fs || fifosInOutTargetsMissing t fs) = true ↔
      ((∃ pr ∈ t.OutTargets, pr.2.doStream = false ∧
          (fsHas fs pr.2.GetPath = true ∨ fsHas fs pr.2.GetTempPath = true)) ∨
        (∃ pr ∈ t.OutTargets, pr.2.doStream = true ∧
          fsHas fs pr.2.GetFifoPath = false)) := by
  simp only [Bool.or_eq_true, anyOutputExists, fifosInOutTargetsMissing,
    List.any_eq_true, Bool.and_eq_true, Bool.not_eq_true']

/-- Claim C1: for every task, `Execute` invokes neither the custom
strategy nor the shell command iff some non-streaming out-target's final
or temporary path exists initially, or some streaming out-target's FIFO
path is missing initially; and in that case the whole trace is just the
completion signal — no error, no other side effect. -/
theorem execute_skips_iff_output_exists_or_fifo_missing (t : SciTask) (fs : List String) :
    ((∀ e ∈ Execute t fs, isInvocation e = false) ↔
        ((∃ pr ∈ t.OutTargets, pr.2.doStream = false ∧
            (fsHas fs pr.2.GetPath = true ∨ fsHas fs pr.2.GetTempPath = true)) ∨
          (∃ pr ∈ t.OutTargets, pr.2.doStream = true ∧
            fsHas fs pr.2.GetFifoPath = false)))
      ∧ ((∀ e ∈ Execute t fs, isInvocation e = false) ↔
        Execute t fs = [Effect.sendDone, Effect.closeDone]) := by
  rw [← skipCond_iff]
  by_cases h : (anyOutputExists t fs || fifosInOutTargetsMissing t fs) = true
  · have hskip : Execute t fs = [Effect.sendDone, Effect.closeDone] := by
      have hc : (!anyOutputExists t fs && !fifosInOutTargetsMissing t fs) = false := by
        have h2 := h
        rw [Bool.or_eq_true] at h2
        rcases h2 with h1 | h1 <;> simp [h1]
      simp [Execute, hc]
    have hall : ∀ e ∈ Execute t fs, isInvocation e = false := by
      intro e he
      rw [hskip] at he
      simp only [List.mem_cons, List.mem_singleton] at he
      rcases he with rfl | rfl | he
      · rfl
      · rfl
      · cases he
    exact ⟨⟨fun _ => h, fun _ => hall⟩, ⟨fun _ => hskip, fun _ => hall⟩⟩
  · have hc : (!anyOutputExists t fs && !fifosInOutTargetsMissing t fs) = true := by
      rw [Bool.or_eq_true] at h
      push_neg at h
      simp only [Bool.not_eq_true] at h
      simp [h.1, h.2]
    have hrun : Execute t fs =
        ((if t.CustomExecute.isSome then [Effect.execCustom]
          else [Effect.execShell t.Command]) ++ atomizeTargets t)
          ++ [Effect.sendDone, Effect.closeDone] := by
      simp [Execute, hc]
    have hinv : ¬ (∀ e ∈ Execute t fs, isInvocation e = false) := by
      intro hall
      by_cases hcu : t.CustomExecute.isSome
      · have hm : Effect.execCustom ∈ Execute t fs := by
          rw [hrun]; simp [hcu]
        exact absurd (hall _ hm) (by simp [isInvocation])
      · have hm : Effect.execShell t.Command ∈ Execute t fs := by
          rw [hrun]; simp [hcu]
        exact absurd (hall _ hm) (by simp [isInvocation])
    refine ⟨⟨fun hall => absurd hall hinv, fun hd => absurd hd h⟩,
      ⟨fun hall => absurd hall hinv, fun heq => ?_⟩⟩
    exfalso
    apply hinv
    intro e he
    rw [heq] at he
    simp only [List.mem_cons, List.mem_singleton] at he
    rcases he with rfl | rfl | he
    · rfl
    · rfl
    · cases he

/-- Claim C2: the atomize effects of `Execute` are exactly one
temp-to-final rename per non-streaming out-target (in map order) when
the task runs, and none at all when it is skipped; streaming targets are
never atomized. -/
theorem execute_atomizes_nonstreaming_exactly_once (t : SciTask) (fs : List String) :
    (Execute t fs).filter isAtomize =
      (if (anyOutputExists t fs || fifosInOutTargetsMissing t fs) = true then []
       else (t.OutTargets.filter fun pr => !pr.2.doStream).map
         (fun pr => Effect.atomize pr.2.GetTempPath pr.2.GetPath)) := by
  by_cases h : (anyOutputExists t fs || fifosInOutTargetsMissing t fs) = true
  · have hc : (!anyOutputExists t fs && !fifosInOutTargetsMissing t fs) = false := by
      have h2 := h
      rw [Bool.or_eq_true] at h2
      rcases h2 with h1 | h1 <;> simp [h1]
    have hskip : Execute t fs = [Effect.sendDone, Effect.closeDone] := by
      simp [Execute, hc]
    rw [hskip, if_pos h]
    rfl
  · have hc : (!anyOutputExists t fs && !fifosInOutTargetsMissing t fs) = true := by
      rw [Bool.or_eq_true] at h
      push_neg at h
      simp only [Bool.not_eq_true] at h
      simp [h.1, h.2]
    have hat : (atomizeTargets t).filter isAtomize = atomizeTargets t :=
      List.filter_eq_self.2 fun e he => mem_atomizeTargets_isAtomize t he
    have hstrat : (if t.CustomExecute.isSome then [Effect.execCustom]
        else [Effect.execShell t.Command]).filter isAtomize = [] := by
      by_cases hcu : t.CustomExecute.isSome <;> simp [hcu, isAtomize]
    have hdone : ([Effect.sendDone, Effect.closeDone]).filter isAtomize = [] := rfl
    have hrun : Execute t fs =
        ((if t.CustomExecute.isSome then [Effect.execCustom]
          else [Effect.execShell t.Command]) ++ atomizeTargets t)
          ++ [Effect.sendDone, Effect.closeDone] := by
      simp [Execute, hc]
    rw [hrun, if_neg h, List.filter_append, List.filter_append, hstrat, hat, hdone,
      List.nil_append, List.append_nil, atomizeTargets, atomizeTargets_eq_map]

/-- Claim C3: whichever branch `Execute` takes, its trace ends with the
completion signal followed by the close of the `Done` channel, and
neither occurs anywhere earlier in the trace. -/
theorem execute_signals_once_then_closes (t : SciTask) (fs : List String) :
    ∃ pre, Execute t fs = pre ++ [Effect.sendDone, Effect.closeDone] ∧
      Effect.sendDone ∉ pre ∧ Effect.closeDone ∉ pre := by
  refine ⟨(if !anyOutputExists t fs && !fifosInOutTargetsMissing t fs then
    (if t.CustomExecute.isSome then [Effect.execCustom]
      else [Effect.execShell t.Command]) ++ atomizeTargets t
    else []), rfl, ?_, ?_⟩ <;>
  · intro hmem
    by_cases hc : (!anyOutputExists t fs && !fifosInOutTargetsMissing t fs) = true
    case neg => rw [if_neg hc] at hmem; cases hmem
    case pos =>
      rw [if_pos hc, List.mem_append] at hmem
      rcases hmem with hmem | hmem
      · by_cases hcu : t.CustomExecute.isSome <;> simp [hcu] at hmem
      · have hia := mem_atomizeTargets_isAtomize t hmem
        simp [isAtomize] at hia

/-! ### Formatter theorems: identity, failure, input-path resolution -/

/-- Claim C7: a command containing no placeholder tokens is returned
unchanged by `formatCommand` with an empty prepend string, for all
input, output and parameter mappings. -/
theorem format_no_placeholder_identity (cmd : String)
    (ins outs : List (String × FileTarget)) (ps : List (String × String))
    (h : findToks cmd.data = []) :
    formatCommand cmd ins outs ps ("") = .ok cmd := by
  rw [formatCommand, h]
  rfl

theorem format_no_placeholder_identity_witness :
    formatCommand ("echo hello") [] [] [] ("") = .ok ("echo hello") :=
  format_no_placeholder_identity ("echo hello") [] [] [] (by decide)

theorem resolveVal_of_unresolvable {ins outs : List (String × FileTarget)}
    {ps : List (String × String)} {t : Tok}
    (hbad : tokenUnresolvable ins outs ps t = true) :
    resolveVal ins outs ps t = none := by
  obtain ⟨ty, nm⟩ := t
  cases ty
  case i =>
    simp only [tokenUnresolvable] at hbad
    cases hlk : ins.lookup (String.mk nm) with
    | none => simp [resolveVal, hlk]
    | some tgt =>
      rw [hlk] at hbad
      simp at hbad
      simp [resolveVal, hlk, hbad.2]
  case o =>
    simp only [tokenUnresolvable, Option.isNone_iff_eq_none] at hbad
    simp [resolveVal, hbad]
  case os =>
    simp only [tokenUnresolvable, Option.isNone_iff_eq_none] at hbad
    simp [resolveVal, hbad]
  case p =>
    simp only [tokenUnresolvable] at hbad
    cases hlk : ps.lookup (String.mk nm) with
    | none => simp [resolveVal, hlk]
    | some v =>
      rw [hlk] at hbad
      simp at hbad
      subst hbad
      simp [resolveVal, hlk]

theorem formatLoop_error_of_mem {ins outs : List (String × FileTarget)}
    {ps : List (String × String)} {t : Tok}
    (hval : resolveVal ins outs ps t = none) :
    ∀ (ms : List Tok) (cmd : List Char), t ∈ ms →
      ∃ e, formatLoop ins outs ps ms cmd = .error e := by
  intro ms
  induction ms with
  | nil => intro cmd h; cases h
  | cons hd ts ih =>
    intro cmd hmem
    rcases List.mem_cons.1 hmem with rfl | hmem
    · refine ⟨resolveErrMsg cmd t, ?_⟩
      simp [formatLoop, resolveTok, hval]
    · cases hrt : resolveTok cmd ins outs ps hd with
      | error e => exact ⟨e, by simp [formatLoop, hrt]⟩
      | ok v =>
        rcases ih (replaceAll cmd hd.render v) hmem with ⟨e, he⟩
        exact ⟨e, by simp [formatLoop, hrt, he]⟩

/-- Claim C5: `formatCommand` fails — aborts instead of returning a
string — whenever some placeholder token of the pattern references a
name absent from the corresponding mapping or resolves to the empty
string; an empty substitution is never silently performed. -/
theorem format_fails_on_unresolvable (cmd : String)
    (ins outs : List (String × FileTarget)) (ps : List (String × String))
    (prep : String) (t : Tok) (hmem : t ∈ findToks cmd.data)
    (hbad : tokenUnresolvable ins outs ps t = true) :
    (formatCommand cmd ins outs ps prep).isOk = false := by
  rcases formatLoop_error_of_mem (resolveVal_of_unresolvable hbad)
    (findToks cmd.data) cmd.data hmem with ⟨e, he⟩
  have herr : formatCommand cmd ins outs ps prep = .error e := by
    simp [formatCommand, formatCommandWith, he]
  rw [herr]
  rfl

theorem format_fails_on_unresolvable_witness :
    (formatCommand ("cat {p:z}") [] [] [] ("")).isOk = false :=
  format_fails_on_unresolvable ("cat {p:z}") [] [] [] ("") ⟨.p, ['z']⟩
    (by decide) (by decide)

/-- Claim C10: `GetInPath` returns the plain final path of a present
input target unconditionally, while the `{i:name}` resolution of
`formatCommand` returns the FIFO path for a streaming input; the two
agree exactly on non-streaming inputs. -/
theorem getinpath_ignores_streaming (t : SciTask) (port : String) (tgt : FileTarget)
    (outs : List (String × FileTarget)) (ps : List (String × String))
    (hlk : t.InTargets.lookup port = some tgt) (hne : tgt.GetPath ≠ ("")) :
    GetInPath t port = some tgt.GetPath
      ∧ resolveVal t.InTargets outs ps ⟨.i, port.data⟩ =
          some (if tgt.doStream then tgt.GetFifoPath.data else tgt.GetPath.data)
      ∧ (resolveVal t.InTargets outs ps ⟨.i, port.data⟩ = some tgt.GetPath.data ↔
          tgt.doStream = false) := by
  have hmkp : String.mk port.data = port := rfl
  have hfifo : tgt.GetFifoPath.data = tgt.GetPath.data ++ (".fifo" : String).data := by
    rw [FileTarget.GetFifoPath, String.data_append]
    rfl
  have hpne : tgt.GetPath.data ≠ [] := by
    intro hnil
    exact hne (congrArg String.mk hnil)
  have hfne : tgt.GetFifoPath.data ≠ [] := by
    rw [hfifo]
    simp
  have hneq : tgt.GetFifoPath.data ≠ tgt.GetPath.data := by
    rw [hfifo]
    intro heq
    have hlen := congrArg List.length heq
    rw [List.length_append] at hlen
    simp at hlen
  have hr : resolveVal t.InTargets outs ps ⟨.i, port.data⟩ =
      some (if tgt.doStream then tgt.GetFifoPath.data else tgt.GetPath.data) := by
    rw [resolveVal]
    simp only [hmkp, hlk]
    rw [if_neg hne]
    cases hds : tgt.doStream <;> simp [hds, hpne, hfne]
  refine ⟨by simp [GetInPath, hlk], hr, ?_⟩
  rw [hr]
  cases hds : tgt.doStream
  · simp
  · simp [hds, hneq]

theorem getinpath_ignores_streaming_witness :
    GetInPath sampleStreamTask ("in") = some ("/d/a")
      ∧ resolveVal sampleStreamTask.InTargets [] [] ⟨.i, ("in" : String).data⟩ =
          some (if (FileTarget.mk ("/d/a") true).doStream
            then (FileTarget.mk ("/d/a") true).GetFifoPath.data
            else (FileTarget.mk ("/d/a") true).GetPath.data)
      ∧ (resolveVal sampleStreamTask.InTargets [] [] ⟨.i, ("in" : String).data⟩ =
          some (FileTarget.mk ("/d/a") true).GetPath.data ↔
          (FileTarget.mk ("/d/a") true).doStream = false) :=
  getinpath_ignores_streaming sampleStreamTask ("in") (FileTarget.mk ("/d/a") true)
    [] [] (by decide) (by decide)

/-! ### Constructor theorems -/

theorem lookup_map_pairs_of_nodup {β γ : Type} (l : List (String × β))
    (h : String × β → γ) (hnd : (l.map Prod.fst).Nodup) (n : String) (f : β)
    (hmem : (n, f) ∈ l) :
    (l.map fun pr => (pr.1, h pr)).lookup n = some (h (n, f)) := by
  induction l with
  | nil => cases hmem
  | cons hd tl ih =>
    simp only [List.map_cons, List.nodup_cons] at hnd
    rcases List.mem_cons.1 hmem with rfl | hmem
    · simp [List.lookup]
    · have hne : (n == hd.1) = false := by
        rw [beq_eq_false_iff_ne]
        intro heq
        exact hnd.1 (heq ▸ List.mem_map.2 ⟨(n, f), hmem, rfl⟩)
      simp only [List.map_cons, List.lookup_cons, hne]
      exact ih hnd.2 hmem

theorem newSciTask_outTargets {name cmdPat : String} {ins : List (String × FileTarget)}
    {fns : List (String × (SciTask → String))} {streams : List (String × Bool)}
    {ps : List (String × String)} {prep : String} {t : SciTask}
    (hok : NewSciTask name cmdPat ins fns streams ps prep = .ok t) :
    t.OutTargets = fns.map fun pr =>
      (pr.1, FileTarget.mk (pr.2 (preTask name ins ps))
        ((streams.lookup pr.1).getD false)) := by
  rw [NewSciTask] at hok
  cases hfc : formatCommand cmdPat ins
      (fns.map fun pr =>
        (pr.1,
          if (streams.lookup pr.1).getD false then
            { NewFileTarget (pr.2 (preTask name ins ps)) with doStream := true }
          else NewFileTarget (pr.2 (preTask name ins ps))))
      ps prep with
  | error e => rw [hfc] at hok; cases hok
  | ok cmdF =>
    rw [hfc] at hok
    have ht := Except.ok.inj hok
    rw [← ht]
    apply List.map_congr_left
    intro pr _
    cases hb : (streams.lookup pr.1).getD false <;>
      simp [hb, NewFileTarget]

/-- Claim C8: a task constructed with output-path generator `f` for a
port has, at that port, an output target whose final path is exactly
the value `f` returned during construction (applied to the task as it
stood then), and the constructed task is a plain value, so the path
never changes afterwards. -/
theorem newscitask_outpath_roundtrip (name cmdPat : String)
    (ins : List (String × FileTarget)) (fns : List (String × (SciTask → String)))
    (streams : List (String × Bool)) (ps : List (String × String)) (prep : String)
    (n : String) (f : SciTask → String) (t : SciTask)
    (hnd : (fns.map Prod.fst).Nodup) (hmem : (n, f) ∈ fns)
    (hok : NewSciTask name cmdPat ins fns streams ps prep = .ok t) :
    (t.OutTargets.lookup n).map FileTarget.GetPath =
      some (f (preTask name ins ps)) := by
  rw [newSciTask_outTargets hok,
    lookup_map_pairs_of_nodup fns
      (fun pr => FileTarget.mk (pr.2 (preTask name ins ps))
        ((streams.lookup pr.1).getD false)) hnd n f hmem]
  rfl

theorem newscitask_outpath_roundtrip_witness :
    (NewSciTask ("t1") ("echo") [] [(("out"), fun _ => ("/data/a.out"))] [] [] ("") =
        .ok sampleBuiltTask1)
      ∧ (sampleBuiltTask1.OutTargets.lookup ("out")).map FileTarget.GetPath =
        some ((fun (_ : SciTask) => ("/data/a.out" : String)) (preTask ("t1") [] [])) :=
  ⟨by decide,
    newscitask_outpath_roundtrip ("t1") ("echo") []
      [(("out"), fun _ => ("/data/a.out"))] [] [] ("") ("out")
      (fun _ => ("/data/a.out")) sampleBuiltTask1
      (by decide) (List.mem_cons_self _ _) (by decide)⟩

/-- Claim C9: inside `NewSciTask` every output-path generator is applied
exactly once, to the under-construction task value, which at that moment
has an empty out-target map and an empty command string — so a generator
can never observe other output targets or the formatted command. -/
theorem newscitask_generators_see_pre_task (name cmdPat : String)
    (ins : List (String × FileTarget)) (fns : List (String × (SciTask → String)))
    (streams : List (String × Bool)) (ps : List (String × String)) (prep : String)
    (t : SciTask) (hok : NewSciTask name cmdPat ins fns streams ps prep = .ok t) :
    (preTask name ins ps).OutTargets = []
      ∧ (preTask name ins ps).Command = ("")
      ∧ t.OutTargets = fns.map fun pr =>
        (pr.1, FileTarget.mk (pr.2 (preTask name ins ps))
          ((streams.lookup pr.1).getD false)) :=
  ⟨rfl, rfl, newSciTask_outTargets hok⟩

theorem newscitask_generators_see_pre_task_witness :
    (preTask ("t2") [] []).OutTargets = []
      ∧ (preTask ("t2") [] []).Command = ("")
      ∧ sampleBuiltTask2.OutTargets =
        ([(("out"), fun _ => ("/data/a.out")), (("s"), fun (_ : SciTask) => ("/d/s"))]).map
          (fun pr => (pr.1, FileTarget.mk (pr.2 (preTask ("t2") [] []))
            (((([(("s"), true)]) : List (String × Bool)).lookup pr.1).getD false))) :=
  newscitask_generators_see_pre_task ("t2") ("echo") []
    [(("out"), fun _ => ("/data/a.out")), (("s"), fun _ => ("/d/s"))]
    [(("s"), true)] [] ("") sampleBuiltTask2 (by decide)

/-! ### Lemmas on literal replacement -/

theorem dropPre_eq_some_iff {p : List Char} :
    ∀ {s r : List Char}, dropPre p s = some r ↔ s = p ++ r := by
  induction p with
  | nil =>
    intro s r
    simp [dropPre]
  | cons a p ih =>
    intro s r
    cases s with
    | nil =>
      constructor
      · intro h; cases h
      · intro h; cases h
    | cons c s =>
      by_cases hac : a = c
      · subst hac
        rw [dropPre, if_pos rfl, List.cons_append]
        constructor
        · intro h
          rw [ih.1 h]
        · intro h
          injection h with _ h2
          exact ih.2 h2
      · rw [dropPre, if_neg hac]
        constructor
        · intro h; cases h
        · intro h
          injection h with h1 _
          exact absurd h1.symm hac

theorem replaceAllGo_fuel {pat rep : List Char} (hp : pat ≠ []) :
    ∀ (f1 : Nat), ∀ (f2 : Nat) (s : List Char), s.length ≤ f1 → s.length ≤ f2 →
      replaceAllGo f1 s pat rep = replaceAllGo f2 s pat rep := by
  intro f1
  induction f1 with
  | zero =>
    intro f2 s h1 _
    have hs : s = [] := List.eq_nil_of_length_eq_zero (Nat.le_zero.1 h1)
    subst hs
    cases f2 with
    | zero => rfl
    | succ f2 =>
      cases pat with
      | nil => exact absurd rfl hp
      | cons a p => rfl
  | succ f1 ih =>
    intro f2 s h1 h2
    cases s with
    | nil =>
      cases f2 with
      | zero =>
        cases pat with
        | nil => exact absurd rfl hp
        | cons a p => rfl
      | succ f2 =>
        cases pat with
        | nil => exact absurd rfl hp
        | cons a p => rfl
    | cons c s1 =>
      cases f2 with
      | zero =>
        exfalso
        rw [List.length_cons] at h2
        omega
      | succ f2 =>
        simp only [List.length_cons] at h1 h2
        cases hdp : dropPre pat (c :: s1) with
        | some r =>
          have hs : c :: s1 = pat ++ r := dropPre_eq_some_iff.1 hdp
          have hpl : 1 ≤ pat.length := List.length_pos.2 hp
          have hrl : r.length ≤ s1.length := by
            have hl := congrArg List.length hs
            rw [List.length_cons, List.length_append] at hl
            omega
          simp only [replaceAllGo, hdp]
          rw [ih f2 r (by omega) (by omega)]
        | none =>
          simp only [replaceAllGo, hdp]
          rw [ih f2 s1 (by omega) (by omega)]

theorem replaceAll_nil (pat rep : List Char) : replaceAll [] pat rep = [] := by
  rw [replaceAll]
  by_cases hp : pat = []
  · rw [if_pos hp]
  · rw [if_neg hp]
    rfl

theorem replaceAll_pos {pat : List Char} (hp : pat ≠ []) (c : Char) (s1 rep : List Char) :
    replaceAll (c :: s1) pat rep =
      match dropPre pat (c :: s1) with
      | some r => rep ++ replaceAll r pat rep
      | none => c :: replaceAll s1 pat rep := by
  rw [replaceAll, if_neg hp]
  cases hdp : dropPre pat (c :: s1) with
  | some r =>
    have hs : c :: s1 = pat ++ r := dropPre_eq_some_iff.1 hdp
    have hpl : 1 ≤ pat.length := List.length_pos.2 hp
    have hrl : r.length ≤ s1.length := by
      have hl := congrArg List.length hs
      rw [List.length_cons, List.length_append] at hl
      omega
    simp only [List.length_cons, replaceAllGo, hdp]
    rw [replaceAll, if_neg hp,
      replaceAllGo_fuel hp s1.length r.length r hrl (le_refl _)]
  | none =>
    simp only [List.length_cons, replaceAllGo, hdp]
    rw [replaceAll, if_neg hp]

theorem replaceAll_of_dropPre_some {pat : List Char} (hp : pat ≠ [])
    {s r : List Char} (hdp : dropPre pat s = some r) (rep : List Char) :
    replaceAll s pat rep = rep ++ replaceAll r pat rep := by
  cases s with
  | nil =>
    cases pat with
    | nil => exact absurd rfl hp
    | cons a p => cases hdp
  | cons c s1 =>
    rw [replaceAll_pos hp, hdp]

theorem replaceAll_self {pat : List Char} (hp : pat ≠ []) (rest rep : List Char) :
    replaceAll (pat ++ rest) pat rep = rep ++ replaceAll rest pat rep :=
  replaceAll_of_dropPre_some hp (dropPre_eq_some_iff.2 rfl) rep

theorem replaceAll_append_lit {pat p2 : List Char} (hpat : pat = '{' :: p2)
    {a : List Char} (ha : '{' ∉ a) (b rep : List Char) :
    replaceAll (a ++ b) pat rep = a ++ replaceAll b pat rep := by
  have hp : pat ≠ [] := by rw [hpat]; exact List.cons_ne_nil _ _
  induction a with
  | nil => simp
  | cons c a ih =>
    have hca : ¬ ('{' : Char) = c := by
      intro h
      exact ha (h ▸ List.mem_cons_self c a)
    have ha2 : '{' ∉ a := fun h => ha (List.mem_cons_of_mem _ h)
    have hdp : dropPre pat (c :: (a ++ b)) = none := by
      rw [hpat, dropPre, if_neg hca]
    rw [List.cons_append, replaceAll_pos hp, hdp, ih ha2]
    rfl

/-! ### Token shape lemmas -/

theorem Tok.render_eq_mid (t : Tok) : t.render = '{' :: (t.mid ++ ['}']) := by
  rw [Tok.render, Tok.mid]
  simp

theorem Tok.render_ne_nil (t : Tok) : t.render ≠ [] := by
  rw [Tok.render]
  exact List.cons_ne_nil _ _

theorem PTyp.chars_no_colon (ty : PTyp) : ':' ∉ ty.chars := by
  cases ty <;> decide

theorem PTyp.chars_no_brace (ty : PTyp) :
    '{' ∉ ty.chars ∧ '}' ∉ ty.chars := by
  cases ty <;> decide

theorem Tok.mid_no_open {t : Tok} (h : t.WF) : '{' ∉ t.mid := by
  intro hmem
  rw [Tok.mid] at hmem
  rcases List.mem_append.1 hmem with hc | hc
  · exact absurd hc (PTyp.chars_no_brace t.typ).1
  · rcases List.mem_cons.1 hc with heq | hc
    · exact absurd heq (by decide)
    · exact absurd rfl (h.2 _ hc).1

theorem Tok.mid_no_close {t : Tok} (h : t.WF) : '}' ∉ t.mid := by
  intro hmem
  rw [Tok.mid] at hmem
  rcases List.mem_append.1 hmem with hc | hc
  · exact absurd hc (PTyp.chars_no_brace t.typ).2
  · rcases List.mem_cons.1 hc with heq | hc
    · exact absurd heq (by decide)
    · exact absurd rfl (h.2 _ hc).2.1

theorem append_marker_inj {mark : Char} :
    ∀ {m1 m2 u w : List Char}, mark ∉ m1 → mark ∉ m2 →
      m1 ++ mark :: u = m2 ++ mark :: w → m1 = m2 ∧ u = w := by
  intro m1
  induction m1 with
  | nil =>
    intro m2 u w _ h2 heq
    cases m2 with
    | nil =>
      injection heq with _ ht
      exact ⟨rfl, ht⟩
    | cons d m2 =>
      injection heq with hh _
      exact absurd (hh ▸ List.mem_cons_self d m2) h2
  | cons c m1 ih =>
    intro m2 u w h1 h2 heq
    cases m2 with
    | nil =>
      injection heq with hh _
      exact absurd (hh.symm ▸ List.mem_cons_self c m1) h1
    | cons d m2 =>
      injection heq with hh ht
      obtain ⟨e1, e2⟩ := ih (fun h => h1 (List.mem_cons_of_mem _ h))
        (fun h => h2 (List.mem_cons_of_mem _ h)) ht
      subst hh
      rw [e1]
      exact ⟨rfl, e2⟩

theorem Tok.render_inj {t1 t2 : Tok} (h1 : t1.WF) (h2 : t2.WF)
    (h : t1.render = t2.render) : t1 = t2 := by
  obtain ⟨ty1, nm1⟩ := t1
  obtain ⟨ty2, nm2⟩ := t2
  rw [Tok.render, Tok.render] at h
  injection h with _ h
  obtain ⟨hc, hn⟩ := append_marker_inj (PTyp.chars_no_colon ty1)
    (PTyp.chars_no_colon ty2) h
  have hnm1 : '}' ∉ nm1 := fun hm => absurd rfl (h1.2 _ hm).2.1
  have hnm2 : '}' ∉ nm2 := fun hm => absurd rfl (h2.2 _ hm).2.1
  obtain ⟨hnm, -⟩ := append_marker_inj hnm1 hnm2
    (show nm1 ++ '}' :: [] = nm2 ++ '}' :: [] by simpa using hn)
  have hty : ty1 = ty2 := by
    cases ty1 <;> cases ty2 <;> simp_all [PTyp.chars]
  rw [hty, hnm]

theorem render_eq_of_append_eq {t1 t2 : Tok} (h1 : t1.WF) (h2 : t2.WF)
    {rest r : List Char} (heq : t2.render ++ rest = t1.render ++ r) :
    t1.render = t2.render := by
  rw [Tok.render_eq_mid t1, Tok.render_eq_mid t2] at heq
  rw [List.cons_append, List.cons_append] at heq
  injection heq with _ heq
  rw [List.append_assoc, List.append_assoc] at heq
  obtain ⟨hm, -⟩ := append_marker_inj (Tok.mid_no_close h2) (Tok.mid_no_close h1)
    (show t2.mid ++ '}' :: rest = t1.mid ++ '}' :: r by simpa using heq)
  rw [Tok.render_eq_mid t1, Tok.render_eq_mid t2, hm]

theorem replaceAll_skip_tok {t1 t2 : Tok} (h1 : t1.WF) (h2 : t2.WF)
    (hne : t1.render ≠ t2.render) (rest v : List Char) :
    replaceAll (t2.render ++ rest) t1.render v =
      t2.render ++ replaceAll rest t1.render v := by
  have hp : t1.render ≠ [] := Tok.render_ne_nil t1
  have hdp : dropPre t1.render (t2.render ++ rest) = none := by
    cases hdp : dropPre t1.render (t2.render ++ rest) with
    | none => rfl
    | some r =>
      exact absurd (render_eq_of_append_eq h1 h2 (dropPre_eq_some_iff.1 hdp)) hne
  have hnb : '{' ∉ t2.mid ++ ['}'] := by
    intro hmem
    rcases List.mem_append.1 hmem with hc | hc
    · exact absurd hc (Tok.mid_no_open h2)
    · rcases List.mem_cons.1 hc with heq | hc
      · exact absurd heq (by decide)
      · cases hc
  rw [Tok.render_eq_mid t2, List.cons_append] at hdp ⊢
  rw [replaceAll_pos hp, hdp,
    replaceAll_append_lit (Tok.render_eq_mid t1) hnb rest v]
  rfl

/-! ### Segment rendering and substitution -/

theorem renderSegs_nil : renderSegs [] = [] := rfl

theorem renderSegs_cons (s : Seg) (ss : List Seg) :
    renderSegs (s :: ss) = s.render ++ renderSegs ss := by
  rw [renderSegs, List.map_cons, List.flatten_cons, renderSegs]

theorem good_substSeg {t : Tok} {v : List Char} (hv : '{' ∉ v ∧ '}' ∉ v)
    {ss : List Seg} (h : ∀ s ∈ ss, s.good) :
    ∀ s ∈ ss.map (substSeg t v), s.good := by
  intro s hs
  rcases List.mem_map.1 hs with ⟨x, hx, rfl⟩
  have hxg := h x hx
  cases x with
  | lit a => exact hxg
  | tok u =>
    rw [substSeg]
    by_cases hr : u.render = t.render
    · rw [if_pos hr]
      exact hv
    · rw [if_neg hr]
      exact hxg

theorem replaceAll_renderSegs {t : Tok} (ht : t.WF) {v : List Char}
    (_hv : '{' ∉ v ∧ '}' ∉ v) :
    ∀ {ss : List Seg}, (∀ s ∈ ss, s.good) →
      replaceAll (renderSegs ss) t.render v = renderSegs (ss.map (substSeg t v)) := by
  intro ss
  induction ss with
  | nil =>
    intro _
    rw [renderSegs_nil, List.map_nil, renderSegs_nil, replaceAll_nil]
  | cons s ss ih =>
    intro hgood
    have hs := hgood s (List.mem_cons_self s ss)
    have hss : ∀ x ∈ ss, x.good := fun x hx => hgood x (List.mem_cons_of_mem _ hx)
    cases s with
    | lit a =>
      rw [renderSegs_cons]
      simp only [Seg.render]
      rw [replaceAll_append_lit (Tok.render_eq_mid t) hs.1 (renderSegs ss) v,
        ih hss, List.map_cons, renderSegs_cons]
      rfl
    | tok u =>
      by_cases hr : u.render = t.render
      · have hrs : renderSegs (Seg.tok u :: ss) = t.render ++ renderSegs ss := by
          rw [renderSegs_cons, Seg.render, hr]
        rw [hrs, replaceAll_self (Tok.render_ne_nil t), ih hss,
          List.map_cons, renderSegs_cons, substSeg, if_pos hr]
        rfl
      · have hne : t.render ≠ u.render := fun h => hr h.symm
        rw [renderSegs_cons, Seg.render,
          replaceAll_skip_tok ht hs hne (renderSegs ss) v, ih hss,
          List.map_cons, renderSegs_cons, substSeg, if_neg hr]
        rfl

/-! ### Scanner correctness on segmented patterns -/

theorem scan_outside_append {a : List Char} (ha : '{' ∉ a) (r : List Char) :
    scan .outside (a ++ r) = scan .outside r := by
  induction a with
  | nil => rfl
  | cons c a ih =>
    have hc : ¬ c = '{' := fun h => ha (h ▸ List.mem_cons_self c a)
    have ha2 : '{' ∉ a := fun h => ha (List.mem_cons_of_mem _ h)
    rw [List.cons_append]
    simp only [scan, if_neg hc]
    exact ih ha2

theorem findToks_no_brace {s : List Char} (h : '{' ∉ s) : findToks s = [] := by
  have h2 := scan_outside_append h []
  rw [List.append_nil] at h2
  rw [findToks, h2]
  rfl

theorem scan_kind_chars (ty : PTyp) (w : List Char) :
    scan (.kind []) (ty.chars ++ ':' :: w) = scan (.name ty []) w := by
  cases ty <;> rfl

theorem scan_name_chars (ty : PTyp) {nm : List Char}
    (hnm : ∀ c ∈ nm, c ≠ '{' ∧ c ≠ '}' ∧ c ≠ ':') :
    ∀ (acc : List Char) (r : List Char), acc.reverse ++ nm ≠ [] →
      scan (.name ty acc) (nm ++ '}' :: r) =
        ⟨ty, acc.reverse ++ nm⟩ :: scan .outside r := by
  induction nm with
  | nil =>
    intro acc r hne
    cases hacc : acc with
    | nil =>
      subst hacc
      exact absurd rfl hne
    | cons a as =>
      subst hacc
      rw [List.nil_append]
      simp only [scan, if_neg (show ¬ ('}' : Char) = '{' by decide),
        if_neg (show ¬ ('}' : Char) = ':' by decide), if_pos rfl]
      rw [List.append_nil]
      simp
  | cons c nm ih =>
    intro acc r hne
    have hc := hnm c (List.mem_cons_self c nm)
    have hnm2 : ∀ x ∈ nm, x ≠ '{' ∧ x ≠ '}' ∧ x ≠ ':' :=
      fun x hx => hnm x (List.mem_cons_of_mem _ hx)
    rw [List.cons_append]
    simp only [scan, if_neg hc.1, if_neg hc.2.2, if_neg hc.2.1]
    have hne2 : (c :: acc).reverse ++ nm ≠ [] := by
      rw [List.reverse_cons, List.append_assoc]
      intro hnil
      exact (List.append_ne_nil_of_right_ne_nil _ (List.cons_ne_nil c nm)) hnil
    rw [ih hnm2 (c :: acc) r hne2, List.reverse_cons, List.append_assoc,
      List.singleton_append]

theorem scan_tok {t : Tok} (ht : t.WF) (r : List Char) :
    scan .outside (t.render ++ r) = t :: scan .outside r := by
  obtain ⟨ty, nm⟩ := t
  rw [Tok.render, List.cons_append]
  simp only [scan, if_pos rfl]
  have hassoc : (PTyp.chars ty ++ ':' :: (nm ++ ['}'])) ++ r =
      PTyp.chars ty ++ ':' :: (nm ++ '}' :: r) := by
    simp
  rw [hassoc, scan_kind_chars ty (nm ++ '}' :: r)]
  have hnm : ∀ c ∈ nm, c ≠ '{' ∧ c ≠ '}' ∧ c ≠ ':' := ht.2
  have hne : ([] : List Char).reverse ++ nm ≠ [] := by
    simpa using ht.1
  rw [scan_name_chars ty hnm [] r hne]
  rfl

theorem findToks_renderSegs {ss : List Seg} (h : ∀ s ∈ ss, s.good) :
    findToks (renderSegs ss) = ss.filterMap segTok := by
  induction ss with
  | nil => rfl
  | cons s ss ih =>
    have hs := h s (List.mem_cons_self s ss)
    have hss : ∀ x ∈ ss, x.good := fun x hx => h x (List.mem_cons_of_mem _ hx)
    cases s with
    | lit a =>
      rw [renderSegs_cons, List.filterMap_cons]
      show scan .outside (a ++ renderSegs ss) = ss.filterMap segTok
      rw [scan_outside_append hs.1 (renderSegs ss)]
      exact ih hss
    | tok t =>
      rw [renderSegs_cons, List.filterMap_cons]
      show scan .outside (t.render ++ renderSegs ss) = t :: ss.filterMap segTok
      rw [scan_tok hs (renderSegs ss)]
      rw [show scan ScanSt.outside (renderSegs ss) = findToks (renderSegs ss) from rfl,
        ih hss]

/-! ### The formatting loop on segmented patterns -/

theorem applySubsts_nil (ins outs : List (String × FileTarget))
    (ps : List (String × String)) (ss : List Seg) :
    applySubsts ins outs ps [] ss = ss := rfl

theorem applySubsts_cons (ins outs : List (String × FileTarget))
    (ps : List (String × String)) (t : Tok) (ms : List Tok) (ss : List Seg) :
    applySubsts ins outs ps (t :: ms) ss =
      applySubsts ins outs ps ms
        (ss.map (substSeg t ((resolveVal ins outs ps t).getD []))) := rfl

theorem formatLoop_renderSegs (ins outs : List (String × FileTarget))
    (ps : List (String × String)) :
    ∀ (ms : List Tok) (ss : List Seg), (∀ s ∈ ss, s.good) →
      (∀ t ∈ ms, t.WF ∧ (resolveVal ins outs ps t).isSome = true ∧
        '{' ∉ (resolveVal ins outs ps t).getD [] ∧
        '}' ∉ (resolveVal ins outs ps t).getD []) →
      formatLoop ins outs ps ms (renderSegs ss) =
        .ok (renderSegs (applySubsts ins outs ps ms ss)) := by
  intro ms
  induction ms with
  | nil =>
    intro ss _ _
    rfl
  | cons t ms ih =>
    intro ss hgood hres
    obtain ⟨hWF, hsome, hvb⟩ := hres t (List.mem_cons_self t ms)
    obtain ⟨v, hv⟩ := Option.isSome_iff_exists.1 hsome
    have hgd : (resolveVal ins outs ps t).getD [] = v := by rw [hv]; rfl
    rw [hgd] at hvb
    rw [formatLoop, resolveTok, hv]
    show formatLoop ins outs ps ms (replaceAll (renderSegs ss) t.render v) = _
    rw [replaceAll_renderSegs hWF hvb hgood,
      ih _ (good_substSeg hvb hgood) (fun x hx => hres x (List.mem_cons_of_mem _ hx)),
      applySubsts_cons, hgd]

theorem tokWF_map_substSeg {t : Tok} {v : List Char} {ss : List Seg}
    (h : ∀ u : Tok, Seg.tok u ∈ ss → u.WF) :
    ∀ u : Tok, Seg.tok u ∈ ss.map (substSeg t v) → u.WF := by
  intro u hu
  rcases List.mem_map.1 hu with ⟨x, hx, hxe⟩
  cases x with
  | lit a => cases hxe
  | tok w =>
    rw [substSeg] at hxe
    by_cases hr : w.render = t.render
    · rw [if_pos hr] at hxe
      cases hxe
    · rw [if_neg hr] at hxe
      injection hxe with hwu
      exact hwu ▸ h w hx

theorem substSeg_totalSub (ins outs : List (String × FileTarget))
    (ps : List (String × String)) {t : Tok} (ht : t.WF) (ms : List Tok) :
    ∀ (s : Seg), (∀ u : Tok, s = Seg.tok u → u.WF) →
      totalSub ins outs ps ms (substSeg t ((resolveVal ins outs ps t).getD []) s) =
        totalSub ins outs ps (t :: ms) s := by
  intro s hg
  cases s with
  | lit a => rfl
  | tok u =>
    have hu : u.WF := hg u rfl
    rw [substSeg]
    by_cases hr : u.render = t.render
    · rw [if_pos hr]
      have htu : t = u := Tok.render_inj ht hu hr.symm
      have hc : ((t :: ms).any fun x => x.render == u.render) = true := by
        rw [List.any_cons, beq_iff_eq.2 hr.symm, Bool.true_or]
      rw [totalSub, totalSub, hc, htu]
      rfl
    · rw [if_neg hr]
      have hbeq : (t.render == u.render) = false :=
        beq_eq_false_iff_ne.2 (fun h => hr h.symm)
      rw [totalSub, totalSub, List.any_cons, hbeq, Bool.false_or]

theorem applySubsts_eq_totalSub (ins outs : List (String × FileTarget))
    (ps : List (String × String)) :
    ∀ (ms : List Tok), (∀ t ∈ ms, t.WF) →
      ∀ (ss : List Seg), (∀ u : Tok, Seg.tok u ∈ ss → u.WF) →
      applySubsts ins outs ps ms ss = ss.map (totalSub ins outs ps ms) := by
  intro ms
  induction ms with
  | nil =>
    intro _ ss _
    rw [applySubsts_nil]
    symm
    have hid : ∀ s ∈ ss, totalSub ins outs ps [] s = s := by
      intro s _
      cases s <;> rfl
    rw [List.map_congr_left hid]
    exact List.map_id ss
  | cons t ms ih =>
    intro hWF ss htoks
    rw [applySubsts_cons,
      ih (fun x hx => hWF x (List.mem_cons_of_mem _ hx)) _ (tokWF_map_substSeg htoks),
      List.map_map]
    apply List.map_congr_left
    intro s hs
    exact substSeg_totalSub ins outs ps (hWF t (List.mem_cons_self t ms)) ms s
      (fun u hu => htoks u (hu ▸ hs))

theorem any_of_perm {α : Type} {l1 l2 : List α} (h : l1.Perm l2) (p : α → Bool) :
    l1.any p = l2.any p := by
  cases hl : l1.any p with
  | true =>
    rcases List.any_eq_true.1 hl with ⟨x, hx, hpx⟩
    exact (List.any_eq_true.2 ⟨x, h.mem_iff.1 hx, hpx⟩).symm
  | false =>
    symm
    rw [List.any_eq_false] at hl ⊢
    intro x hx
    exact hl x (h.mem_iff.2 hx)

theorem totalSub_perm (ins outs : List (String × FileTarget))
    (ps : List (String × String)) {ms1 ms2 : List Tok} (hp : ms1.Perm ms2) (s : Seg) :
    totalSub ins outs ps ms1 s = totalSub ins outs ps ms2 s := by
  cases s with
  | lit a => rfl
  | tok u => rw [totalSub, totalSub, any_of_perm hp]

/-! ### The source's resolution agrees with the spec's table -/

theorem String.data_ne_nil_of_ne {s : String} (h : s ≠ ("")) : s.data ≠ [] := by
  intro hd
  apply h
  cases s with
  | mk l =>
    cases hd
    rfl

theorem data_append_ne_nil (s u : String) (hu : u.data ≠ []) : (s ++ u).data ≠ [] := by
  rw [String.data_append]
  intro h
  exact hu (List.append_eq_nil.1 h).2

theorem resolveVal_eq_spec {ins outs : List (String × FileTarget)}
    {ps : List (String × String)} {t : Tok}
    (h : tokResolvable ins outs ps t = true) :
    resolveVal ins outs ps t = some (specTokenValue ins outs ps t) ∧
      specTokenValue ins outs ps t ≠ [] := by
  obtain ⟨ty, nm⟩ := t
  cases ty
  case o =>
    simp only [tokResolvable] at h
    cases hlk : outs.lookup (String.mk nm) with
    | none => rw [hlk] at h; cases h
    | some tgt =>
      have htmp : tgt.GetTempPath.data ≠ [] := by
        rw [FileTarget.GetTempPath]
        exact data_append_ne_nil _ _ (by decide)
      constructor
      · simp [resolveVal, specTokenValue, hlk, htmp]
      · simp [specTokenValue, hlk, htmp]
  case os =>
    simp only [tokResolvable] at h
    cases hlk : outs.lookup (String.mk nm) with
    | none => rw [hlk] at h; cases h
    | some tgt =>
      have hf : tgt.GetFifoPath.data ≠ [] := by
        rw [FileTarget.GetFifoPath]
        exact data_append_ne_nil _ _ (by decide)
      constructor
      · simp [resolveVal, specTokenValue, hlk, hf]
      · simp [specTokenValue, hlk, hf]
  case i =>
    simp only [tokResolvable] at h
    cases hlk : ins.lookup (String.mk nm) with
    | none => rw [hlk] at h; cases h
    | some tgt =>
      rw [hlk] at h
      have h2 : (if tgt.GetPath = ("") then false else true) = true := h
      have hne : tgt.GetPath ≠ ("") := by
        intro hp
        rw [if_pos hp] at h2
        cases h2
      have hpd : tgt.GetPath.data ≠ [] := String.data_ne_nil_of_ne hne
      have hf : tgt.GetFifoPath.data ≠ [] := by
        rw [FileTarget.GetFifoPath]
        exact data_append_ne_nil _ _ (by decide)
      cases hds : tgt.doStream with
      | true =>
        constructor
        · simp [resolveVal, specTokenValue, hlk, hne, hds, hf]
        · simp [specTokenValue, hlk, hds, hf]
      | false =>
        constructor
        · simp [resolveVal, specTokenValue, hlk, hne, hds, hpd]
        · simp [specTokenValue, hlk, hds, hpd]
  case p =>
    simp only [tokResolvable] at h
    have hg : ((ps.lookup (String.mk nm)).getD ("")) ≠ ("") := by
      intro hp
      rw [if_pos hp] at h
      cases h
    cases hw : ((ps.lookup (String.mk nm)).getD ("")) with
    | mk l =>
      cases l with
      | nil => exact absurd hw (by intro hq; exact hg (by rw [hq]))
      | cons c l =>
        constructor
        · simp [resolveVal, specTokenValue, hw]
        · simp [specTokenValue, hw]

/-! ### Claims C4 and C6: counterexamples and amended theorems -/

/-- Claim C6, as stated, is false: with valid mappings (every name
present, every value nonempty) the result of `formatCommand` can depend
on the order in which the found tokens are substituted, because an early
substitution can destroy or create occurrences of a later token.  Here
`{i:x}` resolves to `b`, `{o:abc}` to `T.tmp`; processing `{i:x}` first
turns `{o:a{i:x}c}` into a second occurrence of `{o:abc}`. -/
theorem format_order_dependent_counterexample :
    (([⟨.i, ['x']⟩, ⟨.o, ['a', 'b', 'c']⟩] : List Tok).Perm
        (findToks ("{o:abc} {o:a{i:x}c}" : String).data))
      ∧ formatCommandWith [⟨.i, ['x']⟩, ⟨.o, ['a', 'b', 'c']⟩]
          ("{o:abc} {o:a{i:x}c}")
          [(("x"), ⟨("b"), false⟩)] [(("abc"), ⟨("T"), false⟩)] [] ("") =
        .ok ("T.tmp T.tmp")
      ∧ formatCommand ("{o:abc} {o:a{i:x}c}")
          [(("x"), ⟨("b"), false⟩)] [(("abc"), ⟨("T"), false⟩)] [] ("") =
        .ok ("T.tmp {o:abc}")
      ∧ ("T.tmp T.tmp" : String) ≠ ("T.tmp {o:abc}") := by
  refine ⟨by decide, by decide, by decide, by decide⟩

/-- Claim C4's final clause, as stated, is false: with valid mappings
(shown by the `tokResolvable` conjunct) a substituted value can combine
with adjacent literal text of the pattern into new token text, so a
literal placeholder remains in the returned string. -/
theorem format_leaves_placeholder_counterexample :
    formatCommand ("{o:abc} {o:a{i:x}c}")
        [(("x"), ⟨("b"), false⟩)] [(("abc"), ⟨("T"), false⟩)] [] ("") =
      .ok ("T.tmp {o:abc}")
      ∧ ((findToks ("{o:abc} {o:a{i:x}c}" : String).data).all
          (fun t => tokResolvable [(("x"), ⟨("b"), false⟩)]
            [(("abc"), ⟨("T"), false⟩)] [] t)) = true
      ∧ findToks ("T.tmp {o:abc}" : String).data ≠ [] := by
  refine ⟨by decide, by decide, by decide⟩

/-- Claim C6 (amended): substitution order cannot matter provided every
brace character of the pattern belongs to a placeholder token (the
pattern alternates brace-free literal text and tokens) and every
resolved value is brace-free: then any processing order that is a
permutation of the found-token list yields the same formatted string. -/
theorem format_order_invariant_amended (ins outs : List (String × FileTarget))
    (ps : List (String × String)) (prep : String) (ss : List Seg) (ms2 : List Tok)
    (hgood : ∀ s ∈ ss, s.good)
    (hres : ∀ t ∈ findToks (renderSegs ss),
      (resolveVal ins outs ps t).isSome = true ∧
      '{' ∉ (resolveVal ins outs ps t).getD [] ∧
      '}' ∉ (resolveVal ins outs ps t).getD [])
    (hperm : ms2.Perm (findToks (renderSegs ss))) :
    formatCommandWith ms2 (String.mk (renderSegs ss)) ins outs ps prep =
      formatCommand (String.mk (renderSegs ss)) ins outs ps prep := by
  have hWFfind : ∀ t ∈ findToks (renderSegs ss), t.WF := by
    rw [findToks_renderSegs hgood]
    intro t ht
    rcases List.mem_filterMap.1 ht with ⟨s, hs, hst⟩
    cases s with
    | lit a => cases hst
    | tok u =>
      have hut : u = t := by
        rw [segTok] at hst
        injection hst
      exact hut ▸ hgood _ hs
  have htokss : ∀ u : Tok, Seg.tok u ∈ ss → u.WF := fun u hu => hgood _ hu
  have hloop : ∀ (ms : List Tok), ms.Perm (findToks (renderSegs ss)) →
      formatLoop ins outs ps ms (renderSegs ss) =
        .ok (renderSegs (ss.map (totalSub ins outs ps ms))) := by
    intro ms hpm
    have hcomb : ∀ t ∈ ms, t.WF ∧ (resolveVal ins outs ps t).isSome = true ∧
        '{' ∉ (resolveVal ins outs ps t).getD [] ∧
        '}' ∉ (resolveVal ins outs ps t).getD [] := by
      intro t ht
      have htf : t ∈ findToks (renderSegs ss) := hpm.mem_iff.1 ht
      exact ⟨hWFfind t htf, hres t htf⟩
    rw [formatLoop_renderSegs ins outs ps ms ss hgood hcomb,
      applySubsts_eq_totalSub ins outs ps ms (fun t ht => (hcomb t ht).1) ss htokss]
  have h1 := hloop ms2 hperm
  have h2 := hloop (findToks (renderSegs ss)) (List.Perm.refl _)
  have heqsub : ss.map (totalSub ins outs ps ms2) =
      ss.map (totalSub ins outs ps (findToks (renderSegs ss))) :=
    List.map_congr_left (fun s _ => totalSub_perm ins outs ps hperm s)
  rw [formatCommand]
  have hdata : (String.mk (renderSegs ss)).data = renderSegs ss := rfl
  rw [formatCommandWith, formatCommandWith, hdata, h1, h2, heqsub]

/-- Claim C4 (amended): under the per-kind resolvability conditions,
`formatCommand` succeeds and equals the simultaneous substitution of
every token by the value of the spec's table — `{i:name}` by the FIFO
path when the input streams and its final path otherwise, `{o:name}` by
the temporary path, `{os:name}` by the FIFO path, `{p:name}` by the
parameter value — and, provided every brace of the pattern belongs to a
token and no substituted value contains a brace, no placeholder remains
in the result. -/
theorem format_resolves_by_kind_amended (ins outs : List (String × FileTarget))
    (ps : List (String × String)) (ss : List Seg)
    (hgood : ∀ s ∈ ss, s.good)
    (hres : ∀ t ∈ findToks (renderSegs ss), tokResolvable ins outs ps t = true ∧
      '{' ∉ specTokenValue ins outs ps t ∧ '}' ∉ specTokenValue ins outs ps t) :
    formatCommand (String.mk (renderSegs ss)) ins outs ps ("") =
      .ok (String.mk (renderSegs (ss.map (specSubst ins outs ps))))
      ∧ findToks (renderSegs (ss.map (specSubst ins outs ps))) = [] := by
  have hfind : findToks (renderSegs ss) = ss.filterMap segTok :=
    findToks_renderSegs hgood
  have hmemtok : ∀ u : Tok, Seg.tok u ∈ ss → u ∈ findToks (renderSegs ss) := by
    intro u hu
    rw [hfind]
    exact List.mem_filterMap.2 ⟨Seg.tok u, hu, rfl⟩
  have hWFfind : ∀ t ∈ findToks (renderSegs ss), t.WF := by
    rw [hfind]
    intro t ht
    rcases List.mem_filterMap.1 ht with ⟨s, hs, hst⟩
    cases s with
    | lit a => cases hst
    | tok u =>
      have hut : u = t := by
        rw [segTok] at hst
        injection hst
      exact hut ▸ hgood _ hs
  have hcomb : ∀ t ∈ findToks (renderSegs ss),
      t.WF ∧ (resolveVal ins outs ps t).isSome = true ∧
      '{' ∉ (resolveVal ins outs ps t).getD [] ∧
      '}' ∉ (resolveVal ins outs ps t).getD [] := by
    intro t ht
    obtain ⟨hrv, -⟩ := resolveVal_eq_spec (hres t ht).1
    refine ⟨hWFfind t ht, ?_, ?_, ?_⟩
    · rw [hrv]; rfl
    · rw [hrv]; exact (hres t ht).2.1
    · rw [hrv]; exact (hres t ht).2.2
  have htokss : ∀ u : Tok, Seg.tok u ∈ ss → u.WF := fun u hu => hgood _ hu
  have hloop := formatLoop_renderSegs ins outs ps (findToks (renderSegs ss)) ss
    hgood hcomb
  rw [applySubsts_eq_totalSub ins outs ps _ (fun t ht => hWFfind t ht) ss htokss]
    at hloop
  have hmaps : ss.map (totalSub ins outs ps (findToks (renderSegs ss))) =
      ss.map (specSubst ins outs ps) := by
    apply List.map_congr_left
    intro s hs
    cases s with
    | lit a => rfl
    | tok u =>
      have humem : u ∈ findToks (renderSegs ss) := hmemtok u hs
      have hany : ((findToks (renderSegs ss)).any
          fun x => x.render == u.render) = true :=
        List.any_eq_true.2 ⟨u, humem, beq_iff_eq.2 rfl⟩
      obtain ⟨hrv, -⟩ := resolveVal_eq_spec (hres u humem).1
      rw [totalSub, specSubst, hany, hrv]
      rfl
  have hnb : '{' ∉ renderSegs (ss.map (specSubst ins outs ps)) := by
    intro hmem
    rw [renderSegs] at hmem
    rcases List.mem_flatten.1 hmem with ⟨l, hl, hcl⟩
    rcases List.mem_map.1 hl with ⟨s2, hs2, rfl⟩
    rcases List.mem_map.1 hs2 with ⟨s, hs, rfl⟩
    cases s with
    | lit a => exact absurd hcl (hgood _ hs).1
    | tok u =>
      exact absurd hcl (hres u (hmemtok u hs)).2.1
  constructor
  · have hdata : (String.mk (renderSegs ss)).data = renderSegs ss := rfl
    rw [formatCommand, formatCommandWith, hdata, hloop, hmaps]
    rfl
  · rw [← hmaps] at hnb ⊢
    exact findToks_no_brace hnb

theorem format_order_invariant_amended_witness :
    formatCommandWith [⟨.o, ['y']⟩, ⟨.i, ['x']⟩]
        (String.mk (renderSegs [Seg.tok ⟨.i, ['x']⟩, Seg.lit [' '], Seg.tok ⟨.o, ['y']⟩]))
        [(("x"), ⟨("/a"), false⟩)] [(("y"), ⟨("/b"), false⟩)] [] ("p1") =
      formatCommand
        (String.mk (renderSegs [Seg.tok ⟨.i, ['x']⟩, Seg.lit [' '], Seg.tok ⟨.o, ['y']⟩]))
        [(("x"), ⟨("/a"), false⟩)] [(("y"), ⟨("/b"), false⟩)] [] ("p1") :=
  format_order_invariant_amended [(("x"), ⟨("/a"), false⟩)] [(("y"), ⟨("/b"), false⟩)]
    [] ("p1") [Seg.tok ⟨.i, ['x']⟩, Seg.lit [' '], Seg.tok ⟨.o, ['y']⟩]
    [⟨.o, ['y']⟩, ⟨.i, ['x']⟩] (by decide) (by decide) (by decide)

theorem format_resolves_by_kind_amended_witness :
    formatCommand
        (String.mk (renderSegs [Seg.tok ⟨.i, ['x']⟩, Seg.lit [' '], Seg.tok ⟨.o, ['y']⟩]))
        [(("x"), ⟨("/a"), true⟩)] [(("y"), ⟨("/b"), false⟩)] [] ("") =
      .ok (String.mk (renderSegs
        (([Seg.tok ⟨.i, ['x']⟩, Seg.lit [' '], Seg.tok ⟨.o, ['y']⟩]).map
          (specSubst [(("x"), ⟨("/a"), true⟩)] [(("y"), ⟨("/b"), false⟩)] []))))
      ∧ findToks (renderSegs
        (([Seg.tok ⟨.i, ['x']⟩, Seg.lit [' '], Seg.tok ⟨.o, ['y']⟩]).map
          (specSubst [(("x"), ⟨("/a"), true⟩)] [(("y"), ⟨("/b"), false⟩)] []))) = [] :=
  format_resolves_by_kind_amended [(("x"), ⟨("/a"), true⟩)] [(("y"), ⟨("/b"), false⟩)]
    [] [Seg.tok ⟨.i, ['x']⟩, Seg.lit [' '], Seg.tok ⟨.o, ['y']⟩]
    (by decide) (by decide)

end Scipipe
